import Mathlib

/- Verification development for the qNTA SurroSel dashboard.

  The definitions below are a shallow embedding of the surrogate selection
  caller in `src/components/sidebar.py`, of the data store in
  `src/src/surro_sel/components/data_store.py`, and of the selection and
  scoring engine.  The engine module `utils/surrogate_selection.py` is not
  among the available source files (only its caller is), so the engine
  definitions are modelled from the specification and marked as such.

  Numbers typed by the user and sizes are modelled as rationals; Python
  `round` (half to even) is modelled by `pyRound`.  Randomness of the RANDOM
  strategy is modelled by an oracle argument giving the score of each call. -/

namespace SurroSel

/-- Selection strategies: the closed enum of the engine. -/
inductive Strategy
  | HIERARCHICAL
  | RANDOM
deriving DecidableEq

/-- Python round: round half to even (banker rounding) on rationals. -/
def pyRound (q : ℚ) : ℤ :=
  let f : ℤ := ⌊q⌋
  let r : ℚ := q - f
  if r < 1 / 2 then f
  else if 1 / 2 < r then f + 1
  else if f % 2 = 0 then f else f + 1

/-- Module constant RANDOM_NS of sidebar.py: default reference fractions. -/
def RANDOM_NS : List ℚ := [1 / 100, 1 / 10, 1 / 5, 1 / 2]

/-- Module constant RANDOM_REPS of sidebar.py: repetitions per size. -/
def RANDOM_REPS : ℕ := 100

/-- User inputs read by one click of the sidebar select button. -/
structure SidebarInputs where
  include_user : Bool
  n_user : ℕ
  include_auto : Bool
  n_auto : ℚ

/-- Size list assembly in sidebar.select (lines 217 to 221): starting from
  the current value of the module level list RANDOM_NS, append the user
  surrogate count when user selection is on and nonempty, then append the
  raw auto input when auto selection is on.  The local name ns aliases the
  module list, so the appended list is also the new value of RANDOM_NS. -/
def assembleNs (randomNs : List ℚ) (inp : SidebarInputs) : List ℚ :=
  let ns1 := if inp.include_user && decide (0 < inp.n_user)
    then randomNs ++ [(inp.n_user : ℚ)] else randomNs
  if inp.include_auto then ns1 ++ [inp.n_auto] else ns1

/-- Fraction resolution in sidebar.select line 224: an entry below one
  becomes round(N * n), any other entry is kept as a raw count. -/
def resolveN (N : ℕ) (n : ℚ) : ℚ :=
  if 1 ≤ n then n else (pyRound ((N : ℚ) * n) : ℚ)

/-- List comprehension of sidebar.select line 224: deduplicate the raw
  entries via list(set(ns)) first, then resolve each entry to a count. -/
def uniqueIntNs (N : ℕ) (ns : List ℚ) : List ℚ :=
  ns.dedup.map (resolveN N)

/-- Sizes finally handed to the random simulation: sorted(unique_int_ns). -/
def simSizes (N : ℕ) (ns : List ℚ) : List ℚ :=
  (uniqueIntNs N ns).insertionSort (· ≤ ·)

/-- One invocation of the simulation part of sidebar.select on the success
  path: the first component is the value of the module list RANDOM_NS after
  the invocation (the appends mutate the aliased list), the second is the
  size list handed to _simulate_random. -/
def selectInvocation (randomNs : List ℚ) (N : ℕ) (inp : SidebarInputs) :
    List ℚ × List ℚ :=
  let ns := assembleNs randomNs inp
  (ns, simSizes N ns)

/-- Argument pairs of the select calls issued by _process_auto (sidebar.py
  line 113): one call per enabled strategy, each passing the raw user input
  n as the size argument. -/
def autoSelectCalls (n : ℚ) (strats : List Strategy) : List (ℚ × Strategy) :=
  strats.map (fun s => (n, s))

/-- Reactive computation user_idx of sidebar.py (lines 78 to 81): positions
  of the descriptor index entries that occur among the entered lines, in
  ascending positional order, as produced by np.where over np.isin. -/
def user_idx (ids : List String) (entered : List String) : List ℕ :=
  (List.range ids.length).filter (fun i => decide (ids.getD i "" ∈ entered))

/-- Score stream of _simulate_random (sidebar.py lines 171 to 179).  The
  oracle sel models the RANDOM engine: sel j n is the score returned by the
  j-th select(n, RANDOM) call of the run.  For each size the comprehension
  collects RANDOM_REPS scores in call order. -/
def simScores (sel : ℕ → ℚ → ℝ) (k : ℕ) : List ℚ → List ℝ
  | [] => []
  | n :: rest =>
      (List.range RANDOM_REPS).map (fun r => sel (k + r) n) ++
        simScores sel (k + RANDOM_REPS) rest

/-- Model of np.repeat(ns, r): every entry repeated r times, blockwise. -/
def npRepeat (ns : List ℚ) (r : ℕ) : List ℚ :=
  ns.flatMap (List.replicate r)

/-- Return value of _simulate_random: the score list together with the
  parallel size array np.repeat(ns, RANDOM_REPS). -/
def simulateRandom (sel : ℕ → ℚ → ℝ) (ns : List ℚ) : List ℝ × List ℚ :=
  (simScores sel 0 ns, npRepeat ns RANDOM_REPS)

/-- Reactive data store of data_store.py: current data and descriptor
  frames, surrogate selection results and simulation results.  Frames are
  modelled as identifier indexed row lists, the simulation result as an
  optional pair of score and size sequences (none for the empty dict). -/
structure DataStore (Row Desc : Type) where
  data : List (String × Row)
  desc : List (String × Desc)
  surr : List (String × (List ℕ × ℝ))
  sim : Option (List ℝ × List ℚ)

/-- DataStore.update_data (data_store.py lines 27 to 44): trim the data to
  the descriptor index, install both frames, and clear the derived
  surrogate and simulation state in the same update. -/
def update_data {Row Desc : Type} (_store : DataStore Row Desc)
    (data_ : List (String × Row)) (desc_ : List (String × Desc)) :
    DataStore Row Desc :=
  { data := data_.filter (fun r => decide (r.1 ∈ desc_.map Prod.fst))
    desc := desc_
    surr := []
    sim := none }

/-- Names collected for point i by surrogate_labels: iterating the result
  mapping in order, the strategy name is appended once per occurrence of i
  in the index array of that strategy. -/
def namesAt (surr : List (String × (List ℕ × ℝ))) (i : ℕ) : List String :=
  surr.flatMap (fun e => List.replicate (e.2.1.count i) e.1)

/-- Model of Python sorted on strings: ascending lexicographic order. -/
def sortStrings (xs : List String) : List String :=
  xs.insertionSort (· ≤ ·)

/-- DataStore.surrogate_labels (data_store.py lines 57 to 76): one label
  per data point, in point order; the collected strategy names are sorted
  and joined with an ampersand, a point with no names gets the label none.
  The result is none when an index array refers outside the point range
  (the dict access labels[i] fails there). -/
def surrogate_labels (N : ℕ) (surr : List (String × (List ℕ × ℝ))) :
    Option (List String) :=
  if surr.all (fun e => e.2.1.all (fun i => decide (i < N))) then
    some ((List.range N).map (fun i =>
      let x := namesAt surr i
      if x.isEmpty then "none" else String.intercalate "&" (sortStrings x)))
  else none

/-- Modelled from the spec: the error taxonomy of the engine module
  utils/surrogate_selection.py, which is absent from the available
  sources. -/
inductive EngineError
  | InvalidSizeError
  | InvalidSelectionError
  | UnknownStrategyError
deriving DecidableEq

/-- Row vector of the bound population at index i. -/
def vecAt (pop : List (List ℚ)) (i : ℕ) : List ℚ := pop.getD i []

/-- Squared Euclidean distance of two feature vectors. -/
def sqDist (u v : List ℚ) : ℚ := (List.zipWith (fun a b => (a - b) ^ 2) u v).sum

/-- Euclidean distance of two feature vectors, as a real number. -/
noncomputable def distE (u v : List ℚ) : ℝ := Real.sqrt ((sqDist u v : ℚ) : ℝ)

/-- Minimum of a list of reals, zero for the empty list. -/
def minD : List ℝ → ℝ
  | [] => 0
  | x :: xs => xs.foldl min x

/-- Modelled from the spec: distance from entity i to the nearest member
  of the subset S (engine module absent from the sources). -/
noncomputable def nearestD (pop : List (List ℚ)) (S : List ℕ) (i : ℕ) : ℝ :=
  minD (S.map (fun j => distE (vecAt pop i) (vecAt pop j)))

/-- Modelled from the spec: the LARD representativeness score, the average
  over the whole population of the distance to the nearest subset member
  (engine module absent from the sources). -/
noncomputable def lard (pop : List (List ℚ)) (S : List ℕ) : ℝ :=
  ((List.range pop.length).map (nearestD pop S)).sum / pop.length

/-- Modelled from the spec: SurrogateSelection.score with its validation:
  an empty subset, an out of range index or a duplicate index gives
  InvalidSelectionError, any other subset gets the LARD score (engine
  module absent from the sources). -/
noncomputable def scoreChecked (pop : List (List ℚ)) (S : List ℕ) : Except EngineError ℝ :=
  if S.isEmpty then .error .InvalidSelectionError
  else if S.any (fun j => decide (pop.length ≤ j)) then .error .InvalidSelectionError
  else if ¬ S.Nodup then .error .InvalidSelectionError
  else .ok (lard pop S)

/-- Modelled from the spec: size validation of SurrogateSelection.select:
  a size below one or above the population size gives InvalidSizeError,
  any other size runs the strategy algorithm exec and scores its subset
  (engine module absent from the sources). -/
noncomputable def selectChecked (pop : List (List ℚ)) (exec : ℕ → List ℕ) (size : ℤ) :
    Except EngineError (List ℕ × ℝ) :=
  if size ≤ 0 ∨ (pop.length : ℤ) < size then .error .InvalidSizeError
  else
    let S := exec size.toNat
    .ok (S, lard pop S)

/-- Componentwise sum of two feature vectors. -/
def vadd (u v : List ℚ) : List ℚ := List.zipWith (· + ·) u v

/-- Modelled from the spec: centroid of a cluster, the componentwise mean
  of the member vectors (engine module absent from the sources). -/
def centroid (pop : List (List ℚ)) (c : List ℕ) : List ℚ :=
  match c with
  | [] => []
  | i :: rest =>
      ((rest.map (vecAt pop)).foldl vadd (vecAt pop i)).map
        (fun x => x / ((rest.length : ℚ) + 1))

/-- Choice among a candidate member i and the current best b when scanning
  a cluster for the member closest to the point ctr: a strictly smaller
  squared distance wins, an equal distance wins only for a smaller
  positional index. -/
def pickBetter (pop : List (List ℚ)) (ctr : List ℚ) (i b : ℕ) : Bool :=
  decide (sqDist (vecAt pop i) ctr < sqDist (vecAt pop b) ctr ∨
    (sqDist (vecAt pop i) ctr = sqDist (vecAt pop b) ctr ∧ i < b))

/-- Modelled from the spec: representative of a cluster, the member
  closest to the cluster centroid, ties broken by the smallest positional
  index (engine module absent from the sources). -/
def repPoint (pop : List (List ℚ)) (c : List ℕ) : ℕ :=
  match c with
  | [] => 0
  | x :: xs =>
      xs.foldl
        (fun b i => if pickBetter pop (centroid pop (x :: xs)) i b then i else b) x

/-- Minimum of a list of rationals, zero for the empty list. -/
def minQ : List ℚ → ℚ
  | [] => 0
  | x :: xs => xs.foldl min x

/-- Modelled from the spec: single linkage distance of two clusters, the
  smallest pairwise squared distance between their members. -/
def clusterDist (pop : List (List ℚ)) (c d : List ℕ) : ℚ :=
  minQ (c.flatMap (fun i => d.map (fun j => sqDist (vecAt pop i) (vecAt pop j))))

/-- Ordered position pairs p < q < n of a cluster list of length n. -/
def allPairs (n : ℕ) : List (ℕ × ℕ) :=
  (List.range n).flatMap
    (fun p => ((List.range n).filter (fun q => decide (p < q))).map (fun q => (p, q)))

/-- Choice among a candidate pair pr and the current best pair b when
  scanning for the closest pair of clusters: a strictly smaller linkage
  wins, an equal linkage wins only for a lexicographically smaller pair. -/
def pairBetter (pop : List (List ℚ)) (cs : List (List ℕ)) (pr b : ℕ × ℕ) : Bool :=
  decide (clusterDist pop (cs.getD pr.1 []) (cs.getD pr.2 []) <
      clusterDist pop (cs.getD b.1 []) (cs.getD b.2 []) ∨
    (clusterDist pop (cs.getD pr.1 []) (cs.getD pr.2 []) =
        clusterDist pop (cs.getD b.1 []) (cs.getD b.2 []) ∧
      (pr.1 < b.1 ∨ (pr.1 = b.1 ∧ pr.2 < b.2))))

/-- Position pair of the two clusters merged by the next step. -/
def bestPair (pop : List (List ℚ)) (cs : List (List ℕ)) : ℕ × ℕ :=
  (allPairs cs.length).foldl (fun b pr => if pairBetter pop cs pr b then pr else b) (0, 1)

/-- Merge of the clusters at positions p < q: the merged cluster replaces
  both, the remaining clusters keep their order. -/
def mergeAt (cs : List (List ℕ)) (p q : ℕ) : List (List ℕ) :=
  (cs.getD p [] ++ cs.getD q []) ::
    (cs.take p ++ (cs.drop (p + 1)).take (q - (p + 1)) ++ cs.drop (q + 1))

/-- Modelled from the spec: one agglomerative step, merging the closest
  pair of clusters (engine module absent from the sources). -/
def mergeStep (pop : List (List ℚ)) (cs : List (List ℕ)) : List (List ℕ) :=
  mergeAt cs (bestPair pop cs).1 (bestPair pop cs).2

/-- Modelled from the spec: the agglomerative loop, merging while more
  than k clusters remain; the fuel argument bounds the step count. -/
def mergeLoop (pop : List (List ℚ)) (k : ℕ) : ℕ → List (List ℕ) → List (List ℕ)
  | 0, cs => cs
  | fuel + 1, cs =>
      if k < cs.length then mergeLoop pop k fuel (mergeStep pop cs) else cs

/-- Singleton starting clusters, one per entity of the population. -/
def initClusters (N : ℕ) : List (List ℕ) := (List.range N).map (fun i => [i])

/-- Modelled from the spec: the decomposition of the population into k
  clusters produced by the agglomerative strategy (engine module absent
  from the sources). -/
def finalClusters (pop : List (List ℚ)) (k : ℕ) : List (List ℕ) :=
  mergeLoop pop k pop.length (initClusters pop.length)

/-- Modelled from the spec: the HIERARCHICAL strategy, choosing one
  representative per cluster (engine module absent from the sources). -/
def hierarchicalSel (pop : List (List ℚ)) (k : ℕ) : List ℕ :=
  (finalClusters pop k).map (repPoint pop)

/-- C1 fails on the code: _process_auto passes the raw fractional input to
  select.  At population size 20 and user input 0.2 the issued call
  carries the unresolved fraction 1/5 rather than the resolved count
  round(20 * 0.2) = 4. -/
theorem C1_counterexample :
    ((1 : ℚ) / 5, Strategy.HIERARCHICAL) ∈
      autoSelectCalls (1 / 5) [Strategy.HIERARCHICAL] ∧
    resolveN 20 (1 / 5) = 4 ∧ ((1 : ℚ) / 5) ≠ 4 ∧ ¬ (1 : ℚ) ≤ 1 / 5 := by
  refine ⟨?_, ?_, ?_, ?_⟩
  · simp [autoSelectCalls]
  · norm_num [resolveN, pyRound]
  · norm_num
  · norm_num

/-- C1 (amended): every select call issued by _process_auto for the real
  selection passes the raw user input n as the size argument, for every
  enabled strategy; the round(N * n) resolution is applied only to the
  simulation size list. -/
theorem C1_auto_raw_size (n : ℚ) (strats : List Strategy)
    (c : ℚ × Strategy) (hc : c ∈ autoSelectCalls n strats) : c.1 = n := by
  rcases List.mem_map.mp hc with ⟨s, hs, rfl⟩
  rfl

/-- Witness for C1_auto_raw_size at a concrete call list. -/
theorem C1_auto_raw_size_witness :
    ((1 : ℚ) / 5, Strategy.HIERARCHICAL).1 = 1 / 5 :=
  C1_auto_raw_size (1 / 5) [Strategy.HIERARCHICAL]
    ((1 : ℚ) / 5, Strategy.HIERARCHICAL) (by simp [autoSelectCalls])

/-- C3 fails on the code: deduplication happens before fraction
  resolution.  With population size 4 and auto input 2, the invocation
  assembles [0.01, 0.1, 0.2, 0.5, 2]; resolution maps these entries to
  [0, 0, 1, 2, 2], so the sorted size list handed to the simulation has
  duplicate entries. -/
theorem C3_counterexample :
    assembleNs RANDOM_NS ⟨false, 0, true, 2⟩ =
      [1 / 100, 1 / 10, 1 / 5, 1 / 2, 2] ∧
    simSizes 4 [1 / 100, 1 / 10, 1 / 5, 1 / 2, 2] = [0, 0, 1, 2, 2] ∧
    ¬ (simSizes 4 [1 / 100, 1 / 10, 1 / 5, 1 / 2, 2]).Nodup := by
  have h1 : assembleNs RANDOM_NS ⟨false, 0, true, 2⟩ =
      [1 / 100, 1 / 10, 1 / 5, 1 / 2, 2] := by
    simp [assembleNs, RANDOM_NS]
  have hd : ([1 / 100, 1 / 10, 1 / 5, 1 / 2, 2] : List ℚ).dedup =
      [1 / 100, 1 / 10, 1 / 5, 1 / 2, 2] := by
    norm_num [List.dedup_cons_of_not_mem]
  have hm : uniqueIntNs 4 [1 / 100, 1 / 10, 1 / 5, 1 / 2, 2] =
      [0, 0, 1, 2, 2] := by
    rw [uniqueIntNs, hd]
    norm_num [resolveN, pyRound]
  have h2 : simSizes 4 [1 / 100, 1 / 10, 1 / 5, 1 / 2, 2] = [0, 0, 1, 2, 2] := by
    rw [simSizes, hm]
    norm_num [List.insertionSort, List.orderedInsert]
  refine ⟨h1, h2, ?_⟩
  rw [h2]
  simp

/-- C3 (amended): the size list handed to the simulation is sorted in
  ascending order and is a permutation of the resolved deduplicated raw
  entries; deduplication is applied before fraction resolution, so the raw
  entries are duplicate free while the resolved sizes need not be. -/
theorem C3_sim_sizes_sorted (N : ℕ) (ns : List ℚ) :
    (simSizes N ns).Sorted (· ≤ ·) ∧
    (simSizes N ns).Perm (uniqueIntNs N ns) ∧
    ns.dedup.Nodup := by
  refine ⟨?_, ?_, ?_⟩
  · exact List.sorted_insertionSort _ _
  · exact List.perm_insertionSort _ _
  · exact List.nodup_dedup ns

/-- C4 exposes a code bug: the local name ns aliases the module level list
  RANDOM_NS, so appended counts persist across invocations.  After a first
  invocation with auto count 2 the module list has grown, and a second
  invocation requesting only 3 still simulates size 2 (population size 100
  in both invocations). -/
theorem C4_random_ns_mutation :
    (selectInvocation RANDOM_NS 100 ⟨false, 0, true, 2⟩).1 =
      [1 / 100, 1 / 10, 1 / 5, 1 / 2, 2] ∧
    (selectInvocation RANDOM_NS 100 ⟨false, 0, true, 2⟩).1 ≠ RANDOM_NS ∧
    (2 : ℚ) ∈
      (selectInvocation (selectInvocation RANDOM_NS 100 ⟨false, 0, true, 2⟩).1
        100 ⟨false, 0, true, 3⟩).2 := by
  have h1 : (selectInvocation RANDOM_NS 100 ⟨false, 0, true, 2⟩).1 =
      [1 / 100, 1 / 10, 1 / 5, 1 / 2, 2] := by
    simp [selectInvocation, assembleNs, RANDOM_NS]
  refine ⟨h1, ?_, ?_⟩
  · rw [h1]
    intro h
    have := congrArg List.length h
    simp [RANDOM_NS] at this
  · rw [h1]
    show (2 : ℚ) ∈ simSizes 100 (assembleNs [1 / 100, 1 / 10, 1 / 5, 1 / 2, 2]
      ⟨false, 0, true, 3⟩)
    have ha : assembleNs [1 / 100, 1 / 10, 1 / 5, 1 / 2, 2]
        ⟨false, 0, true, 3⟩ = [1 / 100, 1 / 10, 1 / 5, 1 / 2, 2, 3] := by
      simp [assembleNs]
    rw [ha]
    have hmem : (2 : ℚ) ∈ uniqueIntNs 100 [1 / 100, 1 / 10, 1 / 5, 1 / 2, 2, 3] := by
      refine List.mem_map.mpr ⟨2, ?_, by norm_num [resolveN]⟩
      rw [List.mem_dedup]
      norm_num
    exact ((List.perm_insertionSort _ _).mem_iff).mpr hmem

/-- C8: update_data resets the surrogate and simulation results to the
  empty state in the same update, and its result is independent of the
  previous store state, so no selection or simulation result computed
  against a previous dataset stays observable afterwards. -/
theorem C8_update_data_clears {Row Desc : Type}
    (store store2 : DataStore Row Desc) (data_ : List (String × Row))
    (desc_ : List (String × Desc)) :
    (update_data store data_ desc_).surr = [] ∧
    (update_data store data_ desc_).sim = none ∧
    update_data store data_ desc_ = update_data store2 data_ desc_ :=
  ⟨rfl, rfl, rfl⟩

/-- C9: user_idx is strictly increasing with all indices inside the point
  range; its value depends only on which lines occur among the entered
  lines, so repeated entries change nothing, and an entry matching no
  index value contributes nothing and raises no error. -/
theorem C9_user_idx_shape (ids entered : List String) :
    (user_idx ids entered).Pairwise (· < ·) ∧
    (user_idx ids entered).Nodup ∧
    (∀ i ∈ user_idx ids entered, i < ids.length) ∧
    (∀ entered2 : List String, (∀ s, s ∈ entered ↔ s ∈ entered2) →
      user_idx ids entered = user_idx ids entered2) ∧
    (∀ s, s ∉ ids → user_idx ids (s :: entered) = user_idx ids entered) := by
  refine ⟨?_, ?_, ?_, ?_, ?_⟩
  · exact (List.pairwise_lt_range _).filter _
  · exact (List.nodup_range _).filter _
  · intro i hi
    exact List.mem_range.mp (List.mem_of_mem_filter hi)
  · intro entered2 h
    refine List.filter_congr (fun i _ => ?_)
    simp only [decide_eq_decide]
    exact h _
  · intro s hs
    refine List.filter_congr (fun i hi => ?_)
    have hlen : i < ids.length := List.mem_range.mp hi
    have hmem : ids.getD i "" ∈ ids := by
      rw [List.getD_eq_getElem ids "" hlen]
      exact List.getElem_mem hlen
    simp only [decide_eq_decide, List.mem_cons]
    constructor
    · rintro (h1 | h1)
      · exact absurd (h1 ▸ hmem) hs
      · exact h1
    · exact fun h1 => Or.inr h1

/-- Witness for C9_user_idx_shape: an entry that matches no identifier is
  ignored. -/
theorem C9_user_idx_shape_witness :
    user_idx ["a", "b"] ("c" :: ["b"]) = user_idx ["a", "b"] ["b"] :=
  (C9_user_idx_shape ["a", "b"] ["b"]).2.2.2.2 "c" (by decide)

/-- Unfolding of the score stream on a further size. -/
theorem simScores_cons (sel : ℕ → ℚ → ℝ) (k : ℕ) (n : ℚ) (rest : List ℚ) :
    simScores sel k (n :: rest) =
      (List.range RANDOM_REPS).map (fun r => sel (k + r) n) ++
        simScores sel (k + RANDOM_REPS) rest := rfl

/-- Unfolding of the repeated size array on a further size. -/
theorem npRepeat_cons (n : ℚ) (rest : List ℚ) (r : ℕ) :
    npRepeat (n :: rest) r = List.replicate r n ++ npRepeat rest r := rfl

/-- Length of the simulated score stream: RANDOM_REPS scores per size. -/
theorem simScores_length (sel : ℕ → ℚ → ℝ) (k : ℕ) (ns : List ℚ) :
    (simScores sel k ns).length = RANDOM_REPS * ns.length := by
  induction ns generalizing k with
  | nil => simp [simScores]
  | cons n rest ih =>
      rw [simScores_cons, List.length_append, List.length_map,
        List.length_range, ih, List.length_cons, Nat.mul_succ]
      omega

/-- Length of the repeated size array. -/
theorem npRepeat_length (ns : List ℚ) (r : ℕ) :
    (npRepeat ns r).length = r * ns.length := by
  induction ns with
  | nil => simp [npRepeat]
  | cons n rest ih =>
      rw [npRepeat_cons, List.length_append, List.length_replicate, ih,
        List.length_cons, Nat.mul_succ]
      omega

/-- Occurrence count in the repeated size array. -/
theorem npRepeat_count (ns : List ℚ) (r : ℕ) (q : ℚ) :
    (npRepeat ns r).count q = r * ns.count q := by
  induction ns with
  | nil => simp [npRepeat]
  | cons n rest ih =>
      rw [npRepeat_cons, List.count_append, List.count_replicate, ih,
        List.count_cons]
      rcases eq_or_ne q n with h | h
      · simp [h, Nat.mul_succ]
        omega
      · simp [h, Ne.symm h]

/-- Entry i of the repeated size array is the input size of block number
  i / RANDOM_REPS. -/
theorem npRepeat_getD (ns : List ℚ) (i : ℕ)
    (hi : i < (npRepeat ns RANDOM_REPS).length) :
    (npRepeat ns RANDOM_REPS).getD i 0 = ns.getD (i / RANDOM_REPS) 0 := by
  induction ns generalizing i with
  | nil => simp [npRepeat] at hi
  | cons n rest ih =>
      rw [npRepeat_cons] at hi ⊢
      rcases lt_or_ge i RANDOM_REPS with h | h
      · have hlt : i < (List.replicate RANDOM_REPS n).length := by
          simpa using h
        rw [List.getD_append _ _ _ _ hlt, List.getD_eq_getElem _ _ hlt,
          List.getElem_replicate, Nat.div_eq_of_lt h, List.getD_cons_zero]
      · have hle : (List.replicate RANDOM_REPS n).length ≤ i := by
          simpa using h
        rw [List.getD_append_right _ _ _ _ hle]
        simp only [List.length_append, List.length_replicate] at hi
        simp only [List.length_replicate]
        rw [ih _ (by omega)]
        rw [Nat.div_eq_sub_div (by norm_num [RANDOM_REPS]) h,
          List.getD_cons_succ]

/-- Score i of the stream is given by the oracle at global call number
  k + i, applied to the size label at position i. -/
theorem simScores_getD (sel : ℕ → ℚ → ℝ) (ns : List ℚ) (k i : ℕ)
    (hi : i < (simScores sel k ns).length)
    (hsz : i < (npRepeat ns RANDOM_REPS).length) :
    (simScores sel k ns).getD i 0 =
      sel (k + i) ((npRepeat ns RANDOM_REPS).getD i 0) := by
  induction ns generalizing k i with
  | nil => simp [simScores] at hi
  | cons n rest ih =>
      rw [simScores_cons] at hi ⊢
      rw [npRepeat_cons] at hsz ⊢
      rcases lt_or_ge i RANDOM_REPS with h | h
      · have hlt : i < ((List.range RANDOM_REPS).map
            (fun r => sel (k + r) n)).length := by
          simpa using h
        have hlt2 : i < (List.replicate RANDOM_REPS n).length := by
          simpa using h
        rw [List.getD_append _ _ _ _ hlt, List.getD_append _ _ _ _ hlt2,
          List.getD_eq_getElem _ _ hlt, List.getD_eq_getElem _ _ hlt2,
          List.getElem_map, List.getElem_range, List.getElem_replicate]
      · have hle : ((List.range RANDOM_REPS).map
            (fun r => sel (k + r) n)).length ≤ i := by
          simpa using h
        have hle2 : (List.replicate RANDOM_REPS n).length ≤ i := by
          simpa using h
        rw [List.getD_append_right _ _ _ _ hle,
          List.getD_append_right _ _ _ _ hle2]
        simp only [List.length_append, List.length_map, List.length_range] at hi
        simp only [List.length_append, List.length_replicate] at hsz
        simp only [List.length_map, List.length_range, List.length_replicate]
        rw [ih (k + RANDOM_REPS) (i - RANDOM_REPS) (by omega) (by omega)]
        congr 1
        omega

/-- C2: the baseline simulation collects RANDOM_REPS scores per size in
  block order: with m input sizes the score sequence has length 100 * m,
  the parallel size sequence has the same length, holds every size value
  100 times per occurrence among the inputs and carries the j-th input
  size throughout the j-th block of 100 positions, and the i-th score is
  the result of the i-th select(size, RANDOM) call whose size argument is
  exactly the i-th size label. -/
theorem C2_simulation_shape (sel : ℕ → ℚ → ℝ) (ns : List ℚ) (_hne : ns ≠ []) :
    ((simulateRandom sel ns).1).length = RANDOM_REPS * ns.length ∧
    ((simulateRandom sel ns).2).length = RANDOM_REPS * ns.length ∧
    (∀ q : ℚ, ((simulateRandom sel ns).2).count q = RANDOM_REPS * ns.count q) ∧
    (∀ i, i < ((simulateRandom sel ns).2).length →
      ((simulateRandom sel ns).2).getD i 0 = ns.getD (i / RANDOM_REPS) 0) ∧
    (∀ i, i < ((simulateRandom sel ns).1).length →
      i < ((simulateRandom sel ns).2).length →
      ((simulateRandom sel ns).1).getD i 0 =
        sel i (((simulateRandom sel ns).2).getD i 0)) := by
  refine ⟨simScores_length sel 0 ns, npRepeat_length ns RANDOM_REPS, ?_, ?_, ?_⟩
  · intro q
    exact npRepeat_count ns RANDOM_REPS q
  · intro i hi
    exact npRepeat_getD ns i hi
  · intro i hi hsz
    have := simScores_getD sel ns 0 i hi hsz
    simpa using this

/-- Witness for C2_simulation_shape: one size and the constant oracle give
  exactly one hundred scores. -/
theorem C2_simulation_shape_witness :
    ((simulateRandom (fun _ _ => (0 : ℝ)) [1]).1).length = 100 := by
  have h := (C2_simulation_shape (fun _ _ => (0 : ℝ)) [1] (by simp)).1
  simpa [RANDOM_REPS] using h

/-- Unfolding of the collected names on a further mapping entry. -/
theorem namesAt_cons (e : String × (List ℕ × ℝ))
    (rest : List (String × (List ℕ × ℝ))) (i : ℕ) :
    namesAt (e :: rest) i =
      List.replicate (e.2.1.count i) e.1 ++ namesAt rest i := rfl

/-- With duplicate free index arrays, the collected names of a point are
  the names of the strategies whose array holds the point, in mapping
  order. -/
theorem namesAt_eq_filter (surr : List (String × (List ℕ × ℝ))) (i : ℕ)
    (hnodup : ∀ e ∈ surr, e.2.1.Nodup) :
    namesAt surr i =
      (surr.filter (fun e => decide (i ∈ e.2.1))).map Prod.fst := by
  induction surr with
  | nil => rfl
  | cons e rest ih =>
      rw [namesAt_cons, List.filter_cons,
        ih (fun d hd => hnodup d (List.mem_cons_of_mem e hd))]
      rcases Decidable.em (i ∈ e.2.1) with h | h
      · rw [List.count_eq_one_of_mem (hnodup e (List.mem_cons_self e rest)) h,
          if_pos (decide_eq_true h), List.map_cons, List.replicate_one,
          List.singleton_append]
      · rw [List.count_eq_zero_of_not_mem h,
          if_neg (by simpa using h), List.replicate_zero, List.nil_append]

/-- C10 fails on the code as stated: an index array may mention a point
  twice, and then the strategy name is repeated in the label.  With one
  strategy h whose array is [0, 0] the single point gets the label h&h,
  not the label h of the set of strategies that selected it. -/
theorem C10_counterexample :
    surrogate_labels 1 [("h", ([0, 0], (0 : ℝ)))] = some ["h&h"] ∧
    ("h&h" : String) ≠ "h" := by
  constructor
  · have h1 : namesAt [("h", ([0, 0], (0 : ℝ)))] 0 = ["h", "h"] := by
      rw [namesAt_cons]
      decide
    have h2 : sortStrings ["h", "h"] = ["h", "h"] := by
      simp [sortStrings, List.insertionSort, List.orderedInsert]
    have h3 : String.intercalate "&" ["h", "h"] = "h&h" := by decide
    have hr : List.range 1 = [0] := by decide
    rw [surrogate_labels, if_pos (by decide), hr]
    simp only [List.map_cons, List.map_nil]
    rw [h1, if_neg (by decide), h2, h3]
  · decide

/-- C10 (amended): when every index array stays inside the point range and
  is duplicate free, surrogate_labels yields one label per point in point
  order: the sorted names of the strategies that selected the point joined
  with an ampersand, or the label none when no strategy selected it. -/
theorem C10_surrogate_labels (N : ℕ) (surr : List (String × (List ℕ × ℝ)))
    (hrange : ∀ e ∈ surr, ∀ i ∈ e.2.1, i < N)
    (hnodup : ∀ e ∈ surr, e.2.1.Nodup) :
    surrogate_labels N surr =
      some ((List.range N).map (fun i =>
        let x := (surr.filter (fun e => decide (i ∈ e.2.1))).map Prod.fst
        if x.isEmpty then "none" else String.intercalate "&" (sortStrings x))) := by
  rw [surrogate_labels, if_pos]
  · refine congrArg some (List.map_congr_left (fun i _ => ?_))
    dsimp only
    rw [namesAt_eq_filter surr i hnodup]
  · rw [List.all_eq_true]
    intro e he
    rw [List.all_eq_true]
    intro i hi
    exact decide_eq_true (hrange e he i hi)

/-- Witness for C10_surrogate_labels: two strategies both selecting point
  zero of a two point population. -/
theorem C10_surrogate_labels_witness :
    surrogate_labels 2 [("h", ([0], (0 : ℝ))), ("r", ([0], (0 : ℝ)))] =
      some ((List.range 2).map (fun i =>
        let x := ([("h", ([0], (0 : ℝ))), ("r", ([0], (0 : ℝ)))].filter
          (fun e => decide (i ∈ e.2.1))).map Prod.fst
        if x.isEmpty then "none" else String.intercalate "&" (sortStrings x))) :=
  C10_surrogate_labels 2 [("h", ([0], (0 : ℝ))), ("r", ([0], (0 : ℝ)))]
    (by decide) (by decide)

/-- Lower bound of a minimum fold below its starting value. -/
theorem foldl_min_le_start (a : ℝ) (l : List ℝ) : l.foldl min a ≤ a := by
  induction l generalizing a with
  | nil => exact le_refl a
  | cons b xs ih => exact le_trans (ih (min a b)) (min_le_left a b)

/-- Lower bound of a minimum fold below every list member. -/
theorem foldl_min_le_mem (a x : ℝ) (l : List ℝ) (hx : x ∈ l) :
    l.foldl min a ≤ x := by
  induction l generalizing a with
  | nil => cases hx
  | cons b xs ih =>
      rw [List.foldl_cons]
      rcases List.mem_cons.mp hx with h | h
      · subst h
        exact le_trans (foldl_min_le_start (min a x) xs) (min_le_right a x)
      · exact ih (min a b) h

/-- Nonnegativity of a minimum fold over nonnegative values. -/
theorem foldl_min_nonneg (a : ℝ) (l : List ℝ) (ha : 0 ≤ a)
    (hl : ∀ x ∈ l, 0 ≤ x) : 0 ≤ l.foldl min a := by
  induction l generalizing a with
  | nil => exact ha
  | cons b xs ih =>
      exact ih (min a b) (le_min ha (hl b (List.mem_cons_self b xs)))
        (fun x hx => hl x (List.mem_cons_of_mem b hx))

/-- Nonnegativity of the list minimum over nonnegative values. -/
theorem minD_nonneg (l : List ℝ) (hl : ∀ x ∈ l, 0 ≤ x) : 0 ≤ minD l := by
  cases l with
  | nil => exact le_refl 0
  | cons b xs =>
      exact foldl_min_nonneg b xs (hl b (List.mem_cons_self b xs))
        (fun x hx => hl x (List.mem_cons_of_mem b hx))

/-- The list minimum is below every member. -/
theorem minD_le (l : List ℝ) (x : ℝ) (hx : x ∈ l) : minD l ≤ x := by
  cases l with
  | nil => cases hx
  | cons b xs =>
      rcases List.mem_cons.mp hx with h | h
      · subst h
        exact foldl_min_le_start x xs
      · exact foldl_min_le_mem b x xs h

/-- Distances are nonnegative. -/
theorem distE_nonneg (u v : List ℚ) : 0 ≤ distE u v := Real.sqrt_nonneg _

/-- Squared distance of a vector to itself vanishes. -/
theorem sqDist_self (u : List ℚ) : sqDist u u = 0 := by
  induction u with
  | nil => rfl
  | cons a v ih =>
      rw [sqDist, List.zipWith_cons_cons, List.sum_cons]
      rw [sqDist] at ih
      rw [ih]
      ring

/-- Distance of a vector to itself vanishes. -/
theorem distE_self (u : List ℚ) : distE u u = 0 := by
  rw [distE, sqDist_self]
  simp

/-- Nearest distances are nonnegative. -/
theorem nearestD_nonneg (pop : List (List ℚ)) (S : List ℕ) (i : ℕ) :
    0 ≤ nearestD pop S i := by
  refine minD_nonneg _ (fun x hx => ?_)
  rcases List.mem_map.mp hx with ⟨j, _, rfl⟩
  exact distE_nonneg _ _

/-- Entities that belong to the subset have nearest distance zero. -/
theorem nearestD_self_zero (pop : List (List ℚ)) (S : List ℕ) (i : ℕ)
    (hi : i ∈ S) : nearestD pop S i = 0 := by
  refine le_antisymm ?_ (nearestD_nonneg pop S i)
  have hmem : distE (vecAt pop i) (vecAt pop i) ∈
      S.map (fun j => distE (vecAt pop i) (vecAt pop j)) :=
    List.mem_map.mpr ⟨i, hi, rfl⟩
  have h := minD_le _ _ hmem
  rw [distE_self] at h
  exact h

/-- Pigeonhole: a duplicate free index list of full length inside the
  range covers the whole range. -/
theorem full_cover_of_nodup (S : List ℕ) (N : ℕ)
    (hrange : ∀ j ∈ S, j < N) (hnd : S.Nodup) (hlen : S.length = N) :
    ∀ i < N, i ∈ S := by
  intro i hi
  have hsub : S.toFinset ⊆ Finset.range N := fun j hj =>
    Finset.mem_range.mpr (hrange j (List.mem_toFinset.mp hj))
  have hcard : (Finset.range N).card ≤ S.toFinset.card := by
    rw [Finset.card_range, List.toFinset_card_of_nodup hnd, hlen]
  have heq := Finset.eq_of_subset_of_card_le hsub hcard
  have hmem : i ∈ S.toFinset := by
    rw [heq]
    exact Finset.mem_range.mpr hi
  exact List.mem_toFinset.mp hmem

/-- C5: for every population and every valid non empty subset the LARD
  score is a nonnegative real, and a subset of full size, which covers
  every index, scores exactly zero. -/
theorem C5_score_nonneg_and_full_zero (pop : List (List ℚ)) (S : List ℕ)
    (_hne : S ≠ []) (hrange : ∀ j ∈ S, j < pop.length) (hnd : S.Nodup) :
    0 ≤ lard pop S ∧ (S.length = pop.length → lard pop S = 0) := by
  constructor
  · refine div_nonneg (List.sum_nonneg (fun x hx => ?_)) (Nat.cast_nonneg _)
    rcases List.mem_map.mp hx with ⟨i, _, rfl⟩
    exact nearestD_nonneg pop S i
  · intro hlen
    have hfull := full_cover_of_nodup S pop.length hrange hnd hlen
    rw [lard]
    have hzero : ((List.range pop.length).map (nearestD pop S)).sum = 0 := by
      refine List.sum_eq_zero (fun x hx => ?_)
      rcases List.mem_map.mp hx with ⟨i, hi, rfl⟩
      exact nearestD_self_zero pop S i (hfull i (List.mem_range.mp hi))
    rw [hzero]
    exact zero_div _

/-- Witness for C5_score_nonneg_and_full_zero on a one point population
  with the full subset. -/
theorem C5_score_nonneg_and_full_zero_witness :
    0 ≤ lard [[0]] [0] ∧
    (([0] : List ℕ).length = ([[0]] : List (List ℚ)).length →
      lard [[0]] [0] = 0) :=
  C5_score_nonneg_and_full_zero [[0]] [0] (by decide) (by decide) (by decide)

/-- C6: select reports InvalidSizeError exactly for a size that is zero,
  negative or above the population size, and score reports
  InvalidSelectionError exactly for a subset that is empty, has an out of
  range index, or has a duplicate index. -/
theorem C6_error_conditions (pop : List (List ℚ)) (exec : ℕ → List ℕ)
    (size : ℤ) (S : List ℕ) :
    (selectChecked pop exec size = .error .InvalidSizeError ↔
      size ≤ 0 ∨ (pop.length : ℤ) < size) ∧
    (scoreChecked pop S = .error .InvalidSelectionError ↔
      S = [] ∨ (∃ j ∈ S, pop.length ≤ j) ∨ ¬ S.Nodup) := by
  constructor
  · rw [selectChecked]
    split_ifs with h
    · exact iff_of_true rfl h
    · exact iff_of_false (by simp) h
  · by_cases hemp : S.isEmpty = true
    · rw [scoreChecked, if_pos hemp]
      exact iff_of_true rfl (Or.inl (List.isEmpty_iff.mp hemp))
    · by_cases hany : (S.any fun j => decide (pop.length ≤ j)) = true
      · rw [scoreChecked, if_neg hemp, if_pos hany]
        refine iff_of_true rfl (Or.inr (Or.inl ?_))
        rcases List.any_eq_true.mp hany with ⟨j, hj, hj2⟩
        exact ⟨j, hj, of_decide_eq_true hj2⟩
      · by_cases hnd : S.Nodup
        · rw [scoreChecked, if_neg hemp, if_neg hany,
            if_neg (not_not_intro hnd)]
          refine iff_of_false (by simp) ?_
          push_neg
          refine ⟨fun hS => hemp (List.isEmpty_iff.mpr hS), fun j hj => ?_,
            hnd⟩
          by_contra hge
          push_neg at hge
          exact hany (List.any_eq_true.mpr ⟨j, hj, decide_eq_true hge⟩)
        · rw [scoreChecked, if_neg hemp, if_neg hany, if_pos hnd]
          exact iff_of_true rfl (Or.inr (Or.inr hnd))

/-- A fold that keeps either the accumulator or the scanned element ends on
  the start value or on a list member. -/
theorem foldl_choice {α : Type} (g : α → α → Bool) (l : List α) (b : α) :
    l.foldl (fun b x => if g x b then x else b) b ∈ b :: l := by
  induction l generalizing b with
  | nil => exact List.mem_cons_self b []
  | cons x xs ih =>
      rw [List.foldl_cons]
      rcases List.mem_cons.mp (ih (if g x b then x else b)) with h | h
      · rcases Decidable.em (g x b = true) with hg | hg
        · rw [if_pos hg] at h ⊢
          rw [h]
          exact List.mem_cons_of_mem b (List.mem_cons_self x xs)
        · rw [if_neg hg] at h ⊢
          rw [h]
          exact List.mem_cons_self b (x :: xs)
      · exact List.mem_cons_of_mem b (List.mem_cons_of_mem x h)

/-- The scan keeping the element with the smaller key, or the smaller
  index at an equal key, ends on a lexicographic lower bound of the start
  value and every list member. -/
theorem foldl_argmin (d : ℕ → ℚ) (xs : List ℕ) (x : ℕ) :
    (d (xs.foldl (fun b i =>
        if decide (d i < d b ∨ (d i = d b ∧ i < b)) then i else b) x) < d x ∨
      (d (xs.foldl (fun b i =>
        if decide (d i < d b ∨ (d i = d b ∧ i < b)) then i else b) x) = d x ∧
       xs.foldl (fun b i =>
        if decide (d i < d b ∨ (d i = d b ∧ i < b)) then i else b) x ≤ x)) ∧
    ∀ j ∈ xs,
      d (xs.foldl (fun b i =>
        if decide (d i < d b ∨ (d i = d b ∧ i < b)) then i else b) x) < d j ∨
      (d (xs.foldl (fun b i =>
        if decide (d i < d b ∨ (d i = d b ∧ i < b)) then i else b) x) = d j ∧
       xs.foldl (fun b i =>
        if decide (d i < d b ∨ (d i = d b ∧ i < b)) then i else b) x ≤ j) := by
  induction xs generalizing x with
  | nil => exact ⟨Or.inr ⟨rfl, le_refl x⟩, fun j hj => absurd hj (List.not_mem_nil j)⟩
  | cons y ys ih =>
      rw [List.foldl_cons]
      rcases Decidable.em (d y < d x ∨ (d y = d x ∧ y < x)) with hg | hg
      · rw [if_pos (decide_eq_true hg)]
        obtain ⟨hy, hall⟩ := ih y
        have hx : d (ys.foldl (fun b i =>
            if decide (d i < d b ∨ (d i = d b ∧ i < b)) then i else b) y) < d x ∨
            (d (ys.foldl (fun b i =>
              if decide (d i < d b ∨ (d i = d b ∧ i < b)) then i else b) y) = d x ∧
             ys.foldl (fun b i =>
              if decide (d i < d b ∨ (d i = d b ∧ i < b)) then i else b) y ≤ x) := by
          rcases hy with hy | hy
          · rcases hg with hg | hg
            · exact Or.inl (lt_trans hy hg)
            · exact Or.inl (hg.1 ▸ hy)
          · rcases hg with hg | hg
            · exact Or.inl (hy.1 ▸ hg)
            · exact Or.inr ⟨hy.1.trans hg.1, le_trans hy.2 (le_of_lt hg.2)⟩
        refine ⟨hx, fun j hj => ?_⟩
        rcases List.mem_cons.mp hj with h | h
        · exact h ▸ hy
        · exact hall j h
      · rw [if_neg (by simpa using hg)]
        obtain ⟨hx, hall⟩ := ih x
        push_neg at hg
        have hy : d (ys.foldl (fun b i =>
            if decide (d i < d b ∨ (d i = d b ∧ i < b)) then i else b) x) < d y ∨
            (d (ys.foldl (fun b i =>
              if decide (d i < d b ∨ (d i = d b ∧ i < b)) then i else b) x) = d y ∧
             ys.foldl (fun b i =>
              if decide (d i < d b ∨ (d i = d b ∧ i < b)) then i else b) x ≤ y) := by
          have hxy : d x ≤ d y := hg.1
          rcases hx with hx | hx
          · exact Or.inl (lt_of_lt_of_le hx hxy)
          · rcases lt_or_eq_of_le hxy with hlt | heq
            · exact Or.inl (hx.1 ▸ hlt)
            · exact Or.inr ⟨hx.1.trans heq, le_trans hx.2 (hg.2 heq.symm)⟩
        refine ⟨hx, fun j hj => ?_⟩
        rcases List.mem_cons.mp hj with h | h
        · exact h ▸ hy
        · exact hall j h

/-- The representative of a non empty cluster is a member, has minimal
  squared distance to the centroid among the members, and is the smallest
  index among the members at that minimal distance. -/
theorem repPoint_spec (pop : List (List ℚ)) (c : List ℕ) (hne : c ≠ []) :
    repPoint pop c ∈ c ∧
    (∀ j ∈ c, sqDist (vecAt pop (repPoint pop c)) (centroid pop c) ≤
      sqDist (vecAt pop j) (centroid pop c)) ∧
    (∀ j ∈ c, sqDist (vecAt pop j) (centroid pop c) =
      sqDist (vecAt pop (repPoint pop c)) (centroid pop c) →
      repPoint pop c ≤ j) := by
  match c with
  | [] => exact absurd rfl hne
  | x :: xs =>
      have hmem : repPoint pop (x :: xs) ∈ x :: xs :=
        foldl_choice (pickBetter pop (centroid pop (x :: xs))) xs x
      obtain ⟨hstart, hall⟩ :=
        foldl_argmin (fun i => sqDist (vecAt pop i) (centroid pop (x :: xs))) xs x
      refine ⟨hmem, fun j hj => ?_, fun j hj hd => ?_⟩
      · rcases List.mem_cons.mp hj with h | h
        · subst h
          rcases hstart with h1 | h1
          · exact le_of_lt h1
          · exact le_of_eq h1.1
        · rcases hall j h with h1 | h1
          · exact le_of_lt h1
          · exact le_of_eq h1.1
      · rcases List.mem_cons.mp hj with h | h
        · subst h
          rcases hstart with h1 | h1
          · exact absurd hd (ne_of_gt h1)
          · exact h1.2
        · rcases hall j h with h1 | h1
          · exact absurd hd (ne_of_gt h1)
          · exact h1.2

/-- Position pairs enumerated for the merge scan are ordered and inside
  the cluster list. -/
theorem allPairs_mem (n : ℕ) (pr : ℕ × ℕ) (h : pr ∈ allPairs n) :
    pr.1 < pr.2 ∧ pr.2 < n := by
  rcases List.mem_flatMap.mp h with ⟨p, hp, hmem⟩
  rcases List.mem_map.mp hmem with ⟨q, hq, rfl⟩
  have h1 := List.mem_filter.mp hq
  exact ⟨of_decide_eq_true h1.2, List.mem_range.mp h1.1⟩

/-- The merged position pair is ordered and inside the cluster list. -/
theorem bestPair_lt (pop : List (List ℚ)) (cs : List (List ℕ))
    (hlen : 2 ≤ cs.length) :
    (bestPair pop cs).1 < (bestPair pop cs).2 ∧
    (bestPair pop cs).2 < cs.length := by
  have h := foldl_choice (fun pr b => pairBetter pop cs pr b)
    (allPairs cs.length) (0, 1)
  rw [bestPair]
  rcases List.mem_cons.mp h with h1 | h1
  · rw [h1]
    exact ⟨Nat.zero_lt_one, by omega⟩
  · exact allPairs_mem cs.length _ h1

/-- Decomposition of a cluster list around two ordered positions. -/
theorem cluster_decomp (cs : List (List ℕ)) (p q : ℕ) (hpq : p < q)
    (hq : q < cs.length) :
    cs = cs.take p ++ cs.getD p [] ::
      ((cs.drop (p + 1)).take (q - (p + 1)) ++ cs.getD q [] :: cs.drop (q + 1)) := by
  have hp : p < cs.length := lt_trans hpq hq
  have h2 : cs.drop p = cs.getD p [] :: cs.drop (p + 1) := by
    rw [List.getD_eq_getElem _ _ hp]
    exact List.drop_eq_getElem_cons hp
  have h4 : (cs.drop (p + 1)).drop (q - (p + 1)) = cs.drop q := by
    rw [List.drop_drop]
    congr 1
    omega
  have h5 : cs.drop q = cs.getD q [] :: cs.drop (q + 1) := by
    rw [List.getD_eq_getElem _ _ hq]
    exact List.drop_eq_getElem_cons hq
  calc cs = cs.take p ++ cs.drop p := (List.take_append_drop p cs).symm
    _ = cs.take p ++ (cs.getD p [] :: cs.drop (p + 1)) := by rw [h2]
    _ = cs.take p ++ (cs.getD p [] ::
        ((cs.drop (p + 1)).take (q - (p + 1)) ++
          (cs.drop (p + 1)).drop (q - (p + 1)))) := by
        rw [List.take_append_drop]
    _ = cs.take p ++ (cs.getD p [] ::
        ((cs.drop (p + 1)).take (q - (p + 1)) ++ cs.drop q)) := by rw [h4]
    _ = cs.take p ++ (cs.getD p [] ::
        ((cs.drop (p + 1)).take (q - (p + 1)) ++
          (cs.getD q [] :: cs.drop (q + 1)))) := by rw [h5]

/-- Merging two clusters shortens the cluster list by one. -/
theorem mergeAt_length (cs : List (List ℕ)) (p q : ℕ) (hpq : p < q)
    (hq : q < cs.length) :
    (mergeAt cs p q).length = cs.length - 1 := by
  have hdec := cluster_decomp cs p q hpq hq
  have htot := congrArg List.length hdec
  simp only [List.length_append, List.length_cons] at htot
  rw [mergeAt]
  simp only [List.length_cons, List.length_append]
  omega

/-- Merging keeps the flattened membership of the cluster list, up to
  permutation. -/
theorem mergeAt_flatten_perm (cs : List (List ℕ)) (p q : ℕ) (hpq : p < q)
    (hq : q < cs.length) :
    (mergeAt cs p q).flatten.Perm cs.flatten := by
  conv_rhs => rw [cluster_decomp cs p q hpq hq]
  rw [mergeAt]
  rw [List.perm_iff_count]
  intro a
  simp only [List.flatten_cons, List.flatten_append, List.count_append]
  ring

/-- Members of a merged cluster list are nonempty when the original
  clusters are. -/
theorem mergeAt_ne_nil (cs : List (List ℕ)) (p q : ℕ) (hpq : p < q)
    (hq : q < cs.length) (hne : ∀ c ∈ cs, c ≠ []) :
    ∀ c ∈ mergeAt cs p q, c ≠ [] := by
  intro c hc
  have hp : p < cs.length := lt_trans hpq hq
  rcases List.mem_cons.mp hc with h | h
  · subst h
    have hpm : cs.getD p [] ∈ cs := by
      rw [List.getD_eq_getElem _ _ hp]
      exact List.getElem_mem hp
    have := hne _ hpm
    intro hcontra
    rcases List.append_eq_nil.mp hcontra with ⟨h1, h2⟩
    exact this h1
  · rcases List.mem_append.mp h with h1 | h1
    · rcases List.mem_append.mp h1 with h2 | h2
      · exact hne c (List.mem_of_mem_take h2)
      · exact hne c (List.mem_of_mem_drop (List.mem_of_mem_take h2))
    · exact hne c (List.mem_of_mem_drop h1)

/-- Flattening singleton clusters recovers the index list. -/
theorem flatten_map_singleton (l : List ℕ) :
    (l.map (fun i => [i])).flatten = l := by
  induction l with
  | nil => rfl
  | cons a t ih => simp [ih]

/-- Starting clusters are nonempty. -/
theorem initClusters_ne_nil (N : ℕ) : ∀ c ∈ initClusters N, c ≠ [] := by
  intro c hc
  rcases List.mem_map.mp hc with ⟨i, _, rfl⟩
  simp

/-- Starting clusters flatten to the full index range. -/
theorem initClusters_flatten (N : ℕ) :
    (initClusters N).flatten = List.range N :=
  flatten_map_singleton _

/-- Invariant of the agglomerative loop: clusters stay nonempty, the
  flattened members stay a permutation of the index range, and with
  enough fuel the loop ends on exactly k clusters. -/
theorem mergeLoop_invariant (pop : List (List ℚ)) (N k : ℕ) (hk : 1 ≤ k) :
    ∀ fuel (cs : List (List ℕ)), (∀ c ∈ cs, c ≠ []) →
      cs.flatten.Perm (List.range N) → k ≤ cs.length →
      (∀ c ∈ mergeLoop pop k fuel cs, c ≠ []) ∧
      (mergeLoop pop k fuel cs).flatten.Perm (List.range N) ∧
      (cs.length - k ≤ fuel → (mergeLoop pop k fuel cs).length = k) := by
  intro fuel
  induction fuel with
  | zero =>
      intro cs h1 h2 h3
      refine ⟨h1, h2, fun hf => ?_⟩
      show cs.length = k
      omega
  | succ n ih =>
      intro cs h1 h2 h3
      have e1 : mergeLoop pop k (n + 1) cs =
          if k < cs.length then mergeLoop pop k n (mergeStep pop cs) else cs :=
        rfl
      by_cases hkl : k < cs.length
      · have hlen2 : 2 ≤ cs.length := by omega
        obtain ⟨hpq, hq⟩ := bestPair_lt pop cs hlen2
        have hlen3 : (mergeStep pop cs).length = cs.length - 1 :=
          mergeAt_length cs _ _ hpq hq
        have h1m : ∀ c ∈ mergeStep pop cs, c ≠ [] :=
          mergeAt_ne_nil cs _ _ hpq hq h1
        have h2m : (mergeStep pop cs).flatten.Perm (List.range N) :=
          (mergeAt_flatten_perm cs _ _ hpq hq).trans h2
        have h3m : k ≤ (mergeStep pop cs).length := by omega
        obtain ⟨ha, hb, hc⟩ := ih (mergeStep pop cs) h1m h2m h3m
        rw [e1, if_pos hkl]
        exact ⟨ha, hb, fun hf => hc (by omega)⟩
      · rw [e1, if_neg hkl]
        exact ⟨h1, h2, fun _ => by omega⟩

/-- Representatives of clusters with duplicate free flattened membership
  are pairwise distinct. -/
theorem reps_nodup (pop : List (List ℚ)) (cs : List (List ℕ))
    (hne : ∀ c ∈ cs, c ≠ []) (hflat : cs.flatten.Nodup) :
    (cs.map (repPoint pop)).Nodup := by
  have hdis : cs.Pairwise List.Disjoint := (List.nodup_flatten.mp hflat).2
  have hpair : cs.Pairwise (fun c d => repPoint pop c ≠ repPoint pop d) := by
    refine hdis.imp_of_mem ?_
    intro c d hc hd hdisj heq
    exact hdisj ((repPoint_spec pop c (hne c hc)).1)
      (by rw [heq]; exact (repPoint_spec pop d (hne d hd)).1)
  exact List.Pairwise.map (repPoint pop) (fun a b hab => hab) hpair

/-- C7: for every population and every size k with 1 ≤ k ≤ N the modelled
  hierarchical strategy returns exactly k indices inside the population
  range without duplicates, and every returned index is the representative
  of its cluster: the member closest to the cluster centroid, ties broken
  by the smallest positional index. -/
theorem C7_hierarchical_select (pop : List (List ℚ)) (k : ℕ)
    (hk : 1 ≤ k) (hkN : k ≤ pop.length) :
    (hierarchicalSel pop k).length = k ∧
    (∀ i ∈ hierarchicalSel pop k, i < pop.length) ∧
    (hierarchicalSel pop k).Nodup ∧
    (∀ c ∈ finalClusters pop k, repPoint pop c ∈ c ∧
      (∀ j ∈ c, sqDist (vecAt pop (repPoint pop c)) (centroid pop c) ≤
        sqDist (vecAt pop j) (centroid pop c)) ∧
      (∀ j ∈ c, sqDist (vecAt pop j) (centroid pop c) =
        sqDist (vecAt pop (repPoint pop c)) (centroid pop c) →
        repPoint pop c ≤ j)) := by
  have hinitlen : (initClusters pop.length).length = pop.length := by
    rw [initClusters, List.length_map, List.length_range]
  obtain ⟨hA, hB, hC⟩ := mergeLoop_invariant pop pop.length k hk pop.length
    (initClusters pop.length) (initClusters_ne_nil pop.length)
    (by rw [initClusters_flatten]) (by omega)
  have hlen : (finalClusters pop k).length = k := hC (by omega)
  refine ⟨?_, ?_, ?_, ?_⟩
  · show ((finalClusters pop k).map (repPoint pop)).length = k
    rw [List.length_map]
    exact hlen
  · intro i hi
    rcases List.mem_map.mp hi with ⟨c, hc, rfl⟩
    have hrep := (repPoint_spec pop c (hA c hc)).1
    have hmem : repPoint pop c ∈ (finalClusters pop k).flatten :=
      List.mem_flatten.mpr ⟨c, hc, hrep⟩
    exact List.mem_range.mp (hB.mem_iff.mp hmem)
  · show ((finalClusters pop k).map (repPoint pop)).Nodup
    exact reps_nodup pop _ hA (hB.nodup_iff.mpr (List.nodup_range _))
  · intro c hc
    exact repPoint_spec pop c (hA c hc)

/-- Witness for C7_hierarchical_select: one cluster requested from a two
  point population. -/
theorem C7_hierarchical_select_witness :
    (hierarchicalSel [[0], [1]] 1).length = 1 ∧
    (∀ i ∈ hierarchicalSel [[0], [1]] 1,
      i < ([[0], [1]] : List (List ℚ)).length) ∧
    (hierarchicalSel [[0], [1]] 1).Nodup ∧
    (∀ c ∈ finalClusters [[0], [1]] 1, repPoint [[0], [1]] c ∈ c ∧
      (∀ j ∈ c, sqDist (vecAt [[0], [1]] (repPoint [[0], [1]] c))
          (centroid [[0], [1]] c) ≤
        sqDist (vecAt [[0], [1]] j) (centroid [[0], [1]] c)) ∧
      (∀ j ∈ c, sqDist (vecAt [[0], [1]] j) (centroid [[0], [1]] c) =
        sqDist (vecAt [[0], [1]] (repPoint [[0], [1]] c))
          (centroid [[0], [1]] c) →
        repPoint [[0], [1]] c ≤ j)) :=
  C7_hierarchical_select [[0], [1]] 1 (by decide) (by decide)

end SurroSel
